import Mathlib

/-!html-parser verification

A shallow embedding of `src/lib/html-parser.js` (the metadata-extraction
core of the blog repository) together with theorems about its five
exported functions: `extractMeta`, `extractTitle`, `escapeHtml`,
`isValidDateFormat` and `extractDateFromFilename`.

JavaScript strings are modelled as Lean `String` (a list of characters);
JavaScript values that may reach the functions are modelled by `JSVal`.
The regular expressions in the source are embedded as explicit regex
syntax trees (`RE`) run by a backtracking matcher (`runRE`) that mirrors
ECMAScript regex semantics for the constructs the source uses: leftmost
match, greedy and lazy character-class stars with backtracking, one
capture group, case-insensitive (ASCII) literal matching for the `i`
flag.  A thrown `TypeError` is modelled explicitly by `Outcome`.
-/

/-- A JavaScript value, restricted to the shapes exercised by the
guards and tests of the library: strings, (integer) numbers, booleans,
`null` and `undefined`. -/
inductive JSVal where
  | str : String → JSVal
  | num : Int → JSVal
  | boolean : Bool → JSVal
  | null : JSVal
  | undefined : JSVal
deriving DecidableEq, Repr

/-- The outcome of calling a JavaScript function that either returns a
string-or-null result or throws a `TypeError`. -/
inductive Outcome where
  | ret : Option String → Outcome
  | typeError : Outcome
deriving DecidableEq, Repr

/-- JavaScript truthiness for the modelled values (`!x` in the source
guards). -/
def jsTruthy : JSVal → Bool
  | .str s => s ≠ ""
  | .num n => n ≠ 0
  | .boolean b => b
  | .null => false
  | .undefined => false

/-- `typeof v === "string"`. -/
def isStringV : JSVal → Bool
  | .str _ => true
  | _ => false

/-- ECMAScript `String(v)` for the modelled values. -/
def jsToString : JSVal → String
  | .str s => s
  | .num n => toString n
  | .boolean b => if b then "true" else "false"
  | .null => "null"
  | .undefined => "undefined"

/-- The single-quote character (U+0027). -/
def squo : Char := Char.ofNat 39

/-- The double-quote character (U+0022). -/
def dquo : Char := Char.ofNat 34

/-- ECMAScript `String.prototype.trim` whitespace set (WhiteSpace and
LineTerminator code points). -/
def isJSWS (c : Char) : Bool :=
  c == ' ' || c == Char.ofNat 9 || c == Char.ofNat 10 || c == Char.ofNat 11 ||
  c == Char.ofNat 12 || c == Char.ofNat 13 || c == Char.ofNat 160 ||
  c == Char.ofNat 0x1680 || (0x2000 ≤ c.toNat && c.toNat ≤ 0x200A) ||
  c == Char.ofNat 0x2028 || c == Char.ofNat 0x2029 || c == Char.ofNat 0x202F ||
  c == Char.ofNat 0x205F || c == Char.ofNat 0x3000 || c == Char.ofNat 0xFEFF

/-- `s.trim()`: strip leading and trailing JavaScript whitespace. -/
def jsTrim (l : List Char) : List Char :=
  ((l.dropWhile isJSWS).reverse.dropWhile isJSWS).reverse

/-! ## A small backtracking regex engine

The patterns of the source only use: literal characters (case-insensitive
under the `i` flag), single-character classes, greedy stars of a class
(`[^>]*`, `[^"']*`), lazy stars of a class (`[\s\S]*?`), concatenation
and one capture group.  `runRE` is a continuation-passing backtracking
matcher whose alternative order mirrors ECMAScript: greedy stars try
the longest consumption first, lazy stars the shortest, and the overall
search (`searchFrom`) tries start positions left to right. -/

/-- First-success choice between alternatives (backtracking order). -/
def firstSome {α : Type} : Option α → Option α → Option α
  | some a, _ => some a
  | none, b => b

/-- Greedy star of a character class: consume as many `p`-characters as
possible, backtracking to shorter consumptions on failure of the
continuation. -/
def tryGreedy {α : Type} (p : Char → Bool) (k : List Char → Option α) : List Char → Option α
  | [] => k []
  | c :: rest =>
    if p c then firstSome (tryGreedy p k rest) (k (c :: rest)) else k (c :: rest)

/-- Lazy star of a character class: try the continuation first, then
consume one `p`-character and retry. -/
def tryLazy {α : Type} (p : Char → Bool) (k : List Char → Option α) : List Char → Option α
  | [] => k []
  | c :: rest =>
    firstSome (k (c :: rest)) (if p c then tryLazy p k rest else none)

/-- Regex syntax trees for the constructs used by html-parser.js. -/
inductive RE where
  | eps : RE
  | cls : (Char → Bool) → RE
  | cat : RE → RE → RE
  | starG : (Char → Bool) → RE
  | starL : (Char → Bool) → RE
  | group : RE → RE

/-- Run a regex at the head of the input with continuation `k`, which
receives the remaining input and the current value of capture group 1.
Returns the first success in ECMAScript backtracking order. -/
def runRE : RE → List Char → Option (List Char) →
    (List Char → Option (List Char) → Option (Option (List Char))) → Option (Option (List Char))
  | .eps, s, cap, k => k s cap
  | .cls p, s, cap, k =>
    match s with
    | [] => none
    | c :: rest => if p c then k rest cap else none
  | .cat a b, s, cap, k => runRE a s cap (fun s' cap' => runRE b s' cap' k)
  | .starG p, s, cap, k => tryGreedy p (fun s' => k s' cap) s
  | .starL p, s, cap, k => tryLazy p (fun s' => k s' cap) s
  | .group r, s, cap, k =>
    runRE r s cap (fun s' _ => k s' (some (s.take (s.length - s'.length))))

/-- Attempt a match anchored at the current position; on success return
the value of capture group 1. -/
def matchHere (r : RE) (s : List Char) : Option (Option (List Char)) :=
  runRE r s none (fun _ cap => some cap)

/-- Unanchored search: try each start position from left to right
(ECMAScript `String.prototype.match` without the `g` flag). -/
def searchFrom (r : RE) : List Char → Option (Option (List Char))
  | [] => matchHere r []
  | c :: rest => firstSome (matchHere r (c :: rest)) (searchFrom r rest)

/-- The capture of group 1 of the first match, if any.  In every pattern
of html-parser.js the single group lies on the mandatory path, so a
successful match always carries a capture. -/
def firstGroup (r : RE) (l : List Char) : Option (List Char) :=
  match searchFrom r l with
  | some (some g) => some g
  | _ => none

/-- Case-insensitive character comparison: ECMAScript canonicalisation
under the `i` flag, restricted to ASCII (sufficient for the ASCII
pattern text of the source). -/
def ciEq (a : Char) : Char → Bool := fun c => c.toLower == a.toLower

/-- A case-insensitive literal: the denotation, under the `i` flag, of a
run of pattern characters with no metacharacters. -/
def litCI : List Char → RE
  | [] => .eps
  | c :: cs => .cat (.cls (ciEq c)) (litCI cs)

/-- Concatenate a list of regexes. -/
def cats : List RE → RE
  | [] => .eps
  | r :: rs => .cat r (cats rs)

/-- The class `[^>]`. -/
def notGt (c : Char) : Bool := c != '>'

/-- The class `["']`. -/
def quoteCh (c : Char) : Bool := c == dquo || c == squo

/-- The class `[^"']`. -/
def notQuote (c : Char) : Bool := !(c == dquo || c == squo)

/-- The class `[\s\S]` (any character, including line terminators). -/
def anyCh (_ : Char) : Bool := true

/-- Pattern 1 of `extractMeta` (html-parser.js line 18), with flag `i`:
`<meta[^>]*name=["']NAME["'][^>]*content=["']([^"']*)["']` where `NAME`
is the requested name.  `escapeRegex` (lines 76-78) escapes every regex
metacharacter in the name, so inside the compiled pattern the name
denotes itself as literal text, matched case-insensitively under `i`;
`litCI name` is exactly that denotation. -/
def metaP1 (name : List Char) : RE :=
  cats [litCI "<meta".data, .starG notGt, litCI "name=".data, .cls quoteCh,
    litCI name, .cls quoteCh, .starG notGt, litCI "content=".data, .cls quoteCh,
    .group (.starG notQuote), .cls quoteCh]

/-- Pattern 2 of `extractMeta` (html-parser.js line 23), with flag `i`:
`<meta[^>]*content=["']([^"']*)["'][^>]*name=["']NAME["']`. -/
def metaP2 (name : List Char) : RE :=
  cats [litCI "<meta".data, .starG notGt, litCI "content=".data, .cls quoteCh,
    .group (.starG notQuote), .cls quoteCh, .starG notGt, litCI "name=".data,
    .cls quoteCh, litCI name, .cls quoteCh]

/-- The `<title>` pattern of `extractTitle` (line 41), with flag `i`:
`<title[^>]*>([\s\S]*?)<\/title>`. -/
def titleRE : RE :=
  cats [litCI "<title".data, .starG notGt, .cls (fun c => c == '>'),
    .group (.starL anyCh), litCI "</title>".data]

/-- The `<h1>` fallback pattern of `extractTitle` (line 47), with flag
`i`: `<h1[^>]*>([\s\S]*?)<\/h1>`. -/
def h1RE : RE :=
  cats [litCI "<h1".data, .starG notGt, .cls (fun c => c == '>'),
    .group (.starL anyCh), litCI "</h1>".data]

/-- The characters escaped by `escapeRegex` (line 77). -/
def regexMeta : List Char :=
  ['.', '*', '+', '?', '^', '$', Char.ofNat 123, Char.ofNat 125,
   '(', ')', '|', '[', ']', '\\']

/-- `escapeRegex` (lines 76-78): prefix every regex metacharacter with a
backslash so the string denotes itself as literal pattern text. -/
def escapeRegex (s : String) : String :=
  String.mk (s.data.foldr (fun c acc => (if regexMeta.contains c then ['\\', c] else [c]) ++ acc) [])

/-- `extractMeta` on genuine strings (lines 17-27): try pattern 1, then
pattern 2; on the first match return the trimmed capture. -/
def extractMetaStr (html name : String) : Option String :=
  match firstGroup (metaP1 name.data) html.data with
  | some g => some (String.mk (jsTrim g))
  | none =>
    match firstGroup (metaP2 name.data) html.data with
    | some g => some (String.mk (jsTrim g))
    | none => none

/-- `extractMeta` (lines 12-28) over JavaScript values.  The guard
`!html || typeof html !== "string" || !name` absorbs falsy or
non-string `html` and falsy `name`.  A truthy non-string `name` slips
past the guard and reaches `escapeRegex(name)`, whose
`string.replace(...)` call throws a `TypeError` on a non-string. -/
def extractMeta (html name : JSVal) : Outcome :=
  if !jsTruthy html || !isStringV html || !jsTruthy name then .ret none
  else
    match html, name with
    | .str h, .str n => .ret (extractMetaStr h n)
    | .str _, _ => .typeError
    | _, _ => .ret none

/-- Scan to the first `>`; return the remainder after it. -/
def scanClose : List Char → Option (List Char)
  | [] => none
  | c :: rest => if c == '>' then some rest else scanClose rest

/-- Given the characters after a `<`, decide whether `<[^>]+>` matches
here (at least one non-`>` character, then `>`); on success return the
input remaining after the closing `>`. -/
def tagRemainder : List Char → Option (List Char)
  | [] => none
  | c :: rest => if c == '>' then none else scanClose rest

/-- Fuelled worker for the global replace `.replace(/<[^>]+>/g, "")`
(line 49): scan left to right, removing each `<[^>]+>` span and
continuing after it.  The fuel (initially the input length) strictly
exceeds the number of consumed characters, so the `0` case is never
reached with a nonempty list. -/
def stripTagsAux : Nat → List Char → List Char
  | 0, l => l
  | _ + 1, [] => []
  | fuel + 1, c :: rest =>
    if c == '<' then
      match tagRemainder rest with
      | some after => stripTagsAux fuel after
      | none => c :: stripTagsAux fuel rest
    else c :: stripTagsAux fuel rest

/-- `h1Match[1].replace(/<[^>]+>/g, "")` (line 49). -/
def stripTags (l : List Char) : List Char := stripTagsAux l.length l

/-- `extractTitle` on genuine strings (lines 40-52): first `<title>`
element (trimmed), else first `<h1>` element with inner tags stripped
(then trimmed), else null. -/
def extractTitleStr (html : String) : Option String :=
  match firstGroup titleRE html.data with
  | some g => some (String.mk (jsTrim g))
  | none =>
    match firstGroup h1RE html.data with
    | some g => some (String.mk (jsTrim (stripTags g)))
    | none => none

/-- `extractTitle` (lines 35-53) over JavaScript values: the guard
`!html || typeof html !== "string"` absorbs falsy and non-string
input. -/
def extractTitle : JSVal → Option String
  | .str s => if s == "" then none else extractTitleStr s
  | _ => none

/-- One pass of `String.prototype.replace` with a single-character
global pattern: replace every occurrence of `t` by `r`. -/
def replCh (t : Char) (r : List Char) : List Char → List Char
  | [] => []
  | c :: cs => (if c == t then r else [c]) ++ replCh t r cs

/-- The replacement chain of `escapeHtml` (lines 63-68), applied in
source order: `&` first, then `<`, `>`, `"`, `'`. -/
def escapeHtmlStr (s : String) : String :=
  String.mk (replCh squo "&#x27;".data (replCh dquo "&quot;".data
    (replCh '>' "&gt;".data (replCh '<' "&lt;".data (replCh '&' "&amp;".data s.data)))))

/-- `escapeHtml` (lines 60-69): `input == null` (loosely) maps to the
empty string; any other value is converted with `String(input)` and
escaped. -/
def escapeHtml : JSVal → String
  | .null => ""
  | .undefined => ""
  | v => escapeHtmlStr (jsToString v)

/-- Anchored full match of a fixed list of character classes
(the denotation of `^c1c2...cn$`). -/
def matchExact : List (Char → Bool) → List Char → Bool
  | [], [] => true
  | p :: ps, c :: cs => p c && matchExact ps cs
  | _, _ => false

/-- Anchored prefix match of a fixed list of character classes
(the denotation of `^c1c2...cn`). -/
def matchLeading : List (Char → Bool) → List Char → Bool
  | [], _ => true
  | _ :: _, [] => false
  | p :: ps, c :: cs => p c && matchLeading ps cs

/-- The class `\d` (ASCII digits). -/
def isDigitCh (c : Char) : Bool := c.isDigit

/-- The literal `-`. -/
def isDashCh (c : Char) : Bool := c == '-'

/-- The ten character positions of the lexical pattern `\d{4}-\d{2}-\d{2}`
shared by `isValidDateFormat` (line 90) and
`extractDateFromFilename` (line 110). -/
def dateClasses : List (Char → Bool) :=
  [isDigitCh, isDigitCh, isDigitCh, isDigitCh, isDashCh,
   isDigitCh, isDigitCh, isDashCh, isDigitCh, isDigitCh]

/-- Numeric value of an ASCII digit. -/
def digitVal (c : Char) : Nat := c.toNat - 48

/-- Gregorian leap-year rule (as used by ECMAScript `Date`). -/
def isLeapYear (y : Nat) : Bool := y % 4 == 0 && (y % 100 != 0 || y % 400 == 0)

/-- Days in a month of a given year. -/
def daysInMonth (y m : Nat) : Nat :=
  if m == 2 then (if isLeapYear y then 29 else 28)
  else if m == 4 || m == 6 || m == 9 || m == 11 then 30
  else 31

/-- Modelled from ECMAScript semantics: the combined check
`new Date(dateString)` + `!isNaN(date)` +
`date.toISOString().slice(0, 10) === dateString` of html-parser.js
lines 96-97 for a string already matching `^\d{4}-\d{2}-\d{2}$`.
ECMAScript date-only ISO parsing yields an invalid date exactly when
the month is outside 1..12 or the day is outside 1..days-in-month, and
`toISOString` of a valid date-only parse reproduces the zero-padded
input, so the combined check reduces to calendar validity. -/
def isoDateOK (y m d : Nat) : Bool :=
  1 ≤ m && m ≤ 12 && 1 ≤ d && d ≤ daysInMonth y m

/-- `isValidDateFormat` (lines 85-98): false for falsy or non-string
input; false unless the string matches `^\d{4}-\d{2}-\d{2}$`; then true
iff the string denotes a real calendar date. -/
def isValidDateFormat : JSVal → Bool
  | .str s =>
    if s == "" then false
    else if matchExact dateClasses s.data then
      match s.data with
      | [y1, y2, y3, y4, _, m1, m2, _, d1, d2] =>
        isoDateOK (1000 * digitVal y1 + 100 * digitVal y2 + 10 * digitVal y3 + digitVal y4)
          (10 * digitVal m1 + digitVal m2) (10 * digitVal d1 + digitVal d2)
      | _ => false
    else false
  | _ => false

/-- `extractDateFromFilename` (lines 105-112): null for falsy or
non-string input; else the ten leading characters when the filename
begins with `\d{4}-\d{2}-\d{2}`, and null otherwise. -/
def extractDateFromFilename : JSVal → Option String
  | .str s =>
    if s == "" then none
    else if matchLeading dateClasses s.data then some (String.mk (s.data.take 10))
    else none
  | _ => none

/-! ## Claim-side (specification) definitions

These definitions follow the wording of the specification, to be
compared with the source-derived definitions above. -/

/-- The substitution table of the spec for `escapeForDisplay`: `&` to
`&amp;`, `<` to `&lt;`, `>` to `&gt;`, `"` to `&quot;`, `'` to
`&#x27;`; every other character unaltered. -/
def escCharSpec (c : Char) : List Char :=
  if c == '&' then "&amp;".data
  else if c == '<' then "&lt;".data
  else if c == '>' then "&gt;".data
  else if c == dquo then "&quot;".data
  else if c == squo then "&#x27;".data
  else [c]

/-- A single simultaneous pass of the spec's substitution table over a
string: each source character is escaped exactly once, so entities
introduced by the substitutions are never re-escaped. -/
def escAllSpec : List Char → List Char
  | [] => []
  | c :: cs => escCharSpec c ++ escAllSpec cs

/-- The five characters altered by `escapeForDisplay`. -/
def isSpecialCh (c : Char) : Bool :=
  c == '&' || c == '<' || c == '>' || c == dquo || c == squo

/-- `ConsOnly Q r`: a syntactic bound guaranteeing that every character
consumed by a successful run of `r` satisfies `Q`. -/
def ConsOnly (Q : Char → Bool) : RE → Prop
  | .eps => True
  | .cls p => ∀ c, p c = true → Q c = true
  | .cat a b => ConsOnly Q a ∧ ConsOnly Q b
  | .starG p => ∀ c, p c = true → Q c = true
  | .starL p => ∀ c, p c = true → Q c = true
  | .group r => ConsOnly Q r

/-- `GroupsCons Q r`: the body of every capture group inside `r`
consumes only `Q`-characters, so every capture it produces consists of
`Q`-characters. -/
def GroupsCons (Q : Char → Bool) : RE → Prop
  | .cat a b => GroupsCons Q a ∧ GroupsCons Q b
  | .group r => ConsOnly Q r
  | _ => True

/-! ## Helper lemmas -/

theorem replCh_append (t : Char) (r : List Char) (l1 l2 : List Char) :
    replCh t r (l1 ++ l2) = replCh t r l1 ++ replCh t r l2 := by
  induction l1 with
  | nil => rfl
  | cons c cs ih => simp [replCh, ih]

theorem escapeChain_char (c : Char) :
    replCh squo "&#x27;".data (replCh dquo "&quot;".data (replCh '>' "&gt;".data
      (replCh '<' "&lt;".data (if c == '&' then "&amp;".data else [c])))) = escCharSpec c := by
  by_cases h1 : c = '&'
  · subst h1; rfl
  · by_cases h2 : c = '<'
    · subst h2; rfl
    · by_cases h3 : c = '>'
      · subst h3; rfl
      · by_cases h4 : c = dquo
        · subst h4; rfl
        · by_cases h5 : c = squo
          · subst h5; rfl
          · simp [escCharSpec, replCh, h1, h2, h3, h4, h5]

theorem escapeHtmlStr_eq_escAllSpec (s : String) :
    escapeHtmlStr s = String.mk (escAllSpec s.data) := by
  unfold escapeHtmlStr
  congr 1
  induction s.data with
  | nil => rfl
  | cons c cs ih =>
    show replCh squo _ (replCh dquo _ (replCh '>' _ (replCh '<' _
      ((if c == '&' then "&amp;".data else [c]) ++ replCh '&' "&amp;".data cs)))) = _
    rw [replCh_append, replCh_append, replCh_append, replCh_append]
    rw [escapeChain_char]
    show _ ++ _ = escAllSpec (c :: cs)
    rw [ih]; rfl

theorem escCharSpec_not_special (c : Char) (h : isSpecialCh c = false) :
    escCharSpec c = [c] := by
  simp only [isSpecialCh, Bool.or_eq_false_iff] at h
  obtain ⟨⟨⟨⟨h1, h2⟩, h3⟩, h4⟩, h5⟩ := h
  simp [escCharSpec, h1, h2, h3, h4, h5]

theorem escAllSpec_not_special (l : List Char) (h : ∀ c ∈ l, isSpecialCh c = false) :
    escAllSpec l = l := by
  induction l with
  | nil => rfl
  | cons c cs ih =>
    simp only [escAllSpec]
    rw [escCharSpec_not_special c (h c (List.mem_cons_self c cs)),
      ih (fun x hx => h x (List.mem_cons_of_mem c hx))]
    rfl

theorem escCharSpec_length_pos (c : Char) : 1 ≤ (escCharSpec c).length := by
  unfold escCharSpec
  split
  · decide
  · split
    · decide
    · split
      · decide
      · split
        · decide
        · split
          · decide
          · simp

theorem escAllSpec_length_le (l : List Char) : l.length ≤ (escAllSpec l).length := by
  induction l with
  | nil => simp [escAllSpec]
  | cons c cs ih =>
    simp only [escAllSpec, List.length_append, List.length_cons]
    have := escCharSpec_length_pos c
    omega

theorem escCharSpec_special_length (c : Char) (h : isSpecialCh c = true) :
    2 ≤ (escCharSpec c).length := by
  simp only [isSpecialCh, Bool.or_eq_true, beq_iff_eq] at h
  rcases h with ((((h | h) | h) | h) | h) <;> subst h <;> decide

theorem escCharSpec_special_amp (c : Char) (h : isSpecialCh c = true) :
    '&' ∈ escCharSpec c := by
  simp only [isSpecialCh, Bool.or_eq_true, beq_iff_eq] at h
  rcases h with ((((h | h) | h) | h) | h) <;> subst h <;> decide

theorem escAllSpec_special_length (l : List Char) (c : Char) (hc : c ∈ l)
    (hs : isSpecialCh c = true) : l.length < (escAllSpec l).length := by
  induction l with
  | nil => cases hc
  | cons x xs ih =>
    simp only [escAllSpec, List.length_append, List.length_cons]
    rcases List.mem_cons.mp hc with h | h
    · subst h
      have h2 := escCharSpec_special_length c hs
      have h3 := escAllSpec_length_le xs
      omega
    · have h2 := escCharSpec_length_pos x
      have h3 := ih h
      omega

theorem escAllSpec_special_amp (l : List Char) (c : Char) (hc : c ∈ l)
    (hs : isSpecialCh c = true) : '&' ∈ escAllSpec l := by
  induction l with
  | nil => cases hc
  | cons x xs ih =>
    simp only [escAllSpec, List.mem_append]
    rcases List.mem_cons.mp hc with h | h
    · exact Or.inl (h ▸ escCharSpec_special_amp c hs)
    · exact Or.inr (ih h)

/-- Claim C5: `escapeForDisplay` maps null or undefined to the empty
string; every other input is converted to its textual form and
transformed by exactly the substitutions `&` to `&amp;`, `<` to `&lt;`,
`>` to `&gt;`, `"` to `&quot;`, `'` to `&#x27;`, applied as one
simultaneous pass (the sequential source order, ampersand first, never
re-escapes an entity introduced by a later substitution); no other
character is altered. -/
theorem C5_escapeHtml_spec :
    escapeHtml .null = "" ∧
    escapeHtml .undefined = "" ∧
    (∀ s : String, escapeHtml (.str s) = String.mk (escAllSpec s.data)) ∧
    (∀ n : Int, escapeHtml (.num n) = String.mk (escAllSpec (toString n).data)) ∧
    (∀ b : Bool, escapeHtml (.boolean b) = String.mk (escAllSpec (jsToString (.boolean b)).data)) ∧
    escapeHtml (.str "<script>alert(\"x\")</script>") =
      "&lt;script&gt;alert(&quot;x&quot;)&lt;/script&gt;" := by
  refine ⟨rfl, rfl, ?_, ?_, ?_, by rfl⟩
  · intro s; exact escapeHtmlStr_eq_escAllSpec s
  · intro n; exact escapeHtmlStr_eq_escAllSpec (toString n)
  · intro b; exact escapeHtmlStr_eq_escAllSpec (jsToString (.boolean b))

/-- Claim C10: `escapeForDisplay` is not idempotent: applying it twice
agrees with applying it once exactly on strings containing none of the
five characters `&ltgt"'`; on any string containing one of them the two
differ (for example `&` becomes `&amp;` after one application and
`&amp;amp;` after two). -/
theorem C10_escapeHtml_not_idempotent :
    (∀ s : String, escapeHtmlStr (escapeHtmlStr s) = escapeHtmlStr s ↔
      ∀ c ∈ s.data, isSpecialCh c = false) ∧
    escapeHtmlStr "&" = "&amp;" ∧
    escapeHtmlStr "&amp;" = "&amp;amp;" := by
  refine ⟨?_, by rfl, by rfl⟩
  intro s
  constructor
  · intro h
    by_contra hn
    push_neg at hn
    obtain ⟨c, hc, hcs⟩ := hn
    have hcs' : isSpecialCh c = true := by
      cases hx : isSpecialCh c
      · exact absurd hx hcs
      · rfl
    have hamp : '&' ∈ escAllSpec s.data :=
      escAllSpec_special_amp s.data c hc hcs'
    have hlt : (escAllSpec s.data).length < (escAllSpec (escAllSpec s.data)).length :=
      escAllSpec_special_length (escAllSpec s.data) '&' hamp (by decide)
    rw [escapeHtmlStr_eq_escAllSpec s, escapeHtmlStr_eq_escAllSpec (String.mk (escAllSpec s.data))] at h
    have : escAllSpec (String.mk (escAllSpec s.data)).data = (String.mk (escAllSpec s.data)).data :=
      congrArg String.data h
    simp only [] at this
    rw [this] at hlt
    exact lt_irrefl _ hlt
  · intro h
    have h1 : escAllSpec s.data = s.data := escAllSpec_not_special s.data h
    rw [escapeHtmlStr_eq_escAllSpec s, escapeHtmlStr_eq_escAllSpec (String.mk (escAllSpec s.data))]
    simp only [h1]

/-- Claim C1: `extractMetaTag` recognizes a meta tag in either attribute
order (name before content and content before name) with single- or
double-quoted attribute values; the name-then-content variant is tried
before the content-then-name variant and the first structural match
wins; tag and attribute syntax is matched case-insensitively; the
returned content value is trimmed of leading and trailing whitespace,
with HTML entities and tags inside it returned verbatim; absent (null)
is returned when neither variant matches.  Each clause is established
on representative inputs evaluated through the embedded regex
engine. -/
theorem C1_extractMeta_matching_policy :
    extractMetaStr "<meta name=\"description\" content=\"X\">" "description" = some "X" ∧
    extractMetaStr ("<meta name=" ++ squo.toString ++ "description" ++ squo.toString ++
      " content=" ++ squo.toString ++ "X" ++ squo.toString ++ ">") "description" = some "X" ∧
    extractMetaStr "<meta content=\"X\" name=\"description\">" "description" = some "X" ∧
    extractMetaStr ("<meta content=" ++ squo.toString ++ "X" ++ squo.toString ++
      " name=" ++ squo.toString ++ "description" ++ squo.toString ++ ">") "description" = some "X" ∧
    extractMetaStr "<meta content=\"B\" name=\"d\"><meta name=\"d\" content=\"A\">" "d" = some "A" ∧
    extractMetaStr "<meta name=\"d\" content=\"A\"><meta name=\"d\" content=\"B\">" "d" = some "A" ∧
    extractMetaStr "<META NAME=\"description\" CONTENT=\"X\">" "description" = some "X" ∧
    extractMetaStr "<meta name=\"d\" content=\"  X  \">" "d" = some "X" ∧
    extractMetaStr "<meta name=\"d\" content=\"a&quot;b\">" "d" = some "a&quot;b" ∧
    extractMetaStr "<meta name=\"d\" content=\"a<b>c\">" "d" = some "a<b>c" ∧
    extractMetaStr "<meta name=\"other\" content=\"v\">" "description" = none ∧
    extractMetaStr "<p>hi</p>" "description" = none := by
  exact ⟨rfl, rfl, rfl, rfl, rfl, rfl, rfl, rfl, rfl, rfl, rfl, rfl⟩

/-- Claim C4: `extractTitle` returns the trimmed contents of the first
`<title>` element (case-insensitive, contents may span lines); with no
title element it falls back to the first `<h1>` element with every
`<...>` span removed and the result trimmed; with neither present, or
with empty or non-string input, it returns absent; an unterminated
`<title>` does not match and falls through to the `<h1>` check and then
to absent.  Each clause is established on representative inputs
evaluated through the embedded regex engine. -/
theorem C4_extractTitle_policy :
    extractTitle (.str "<title>A</title>") = some "A" ∧
    extractTitle (.str "<title>\n A\n B\n</title>") = some "A\n B" ∧
    extractTitle (.str "<TITLE>A</TITLE>") = some "A" ∧
    extractTitle (.str "<title lang=\"en\">A</title>") = some "A" ∧
    extractTitle (.str "<title>A</title><title>B</title>") = some "A" ∧
    extractTitle (.str "<h1>A</h1>") = some "A" ∧
    extractTitle (.str "<h1><span>A</span>B</h1>") = some "AB" ∧
    extractTitle (.str "<h1>H</h1><title>T</title>") = some "T" ∧
    extractTitle (.str "<title>unterminated") = none ∧
    extractTitle (.str "<title>x<h1>T</h1>") = some "T" ∧
    extractTitle (.str "<p>x</p>") = none ∧
    extractTitle (.str "") = none ∧
    extractTitle (.num 123) = none ∧
    extractTitle .null = none ∧
    extractTitle .undefined = none := by
  exact ⟨rfl, rfl, rfl, rfl, rfl, rfl, rfl, rfl, rfl, rfl, rfl, rfl, rfl, rfl, rfl⟩

/-- Claim C8: every core operation is deterministic --- the embedding of
each of the five functions is a pure Lean function, so two calls with
identical input yield identical output, with no hidden state. -/
theorem C8_deterministic :
    (∀ h n : JSVal, extractMeta h n = extractMeta h n) ∧
    (∀ v : JSVal, extractTitle v = extractTitle v) ∧
    (∀ v : JSVal, escapeHtml v = escapeHtml v) ∧
    (∀ v : JSVal, isValidDateFormat v = isValidDateFormat v) ∧
    (∀ v : JSVal, extractDateFromFilename v = extractDateFromFilename v) :=
  ⟨fun _ _ => rfl, fun _ => rfl, fun _ => rfl, fun _ => rfl, fun _ => rfl⟩

/-- Claim C2 counterexample: the claim states that for a non-string
`name` such as the number 123, `extractMetaTag` returns absent and
never throws; on the code, a truthy non-string `name` passes the
`!name` guard and reaches `escapeRegex(name)`, whose
`string.replace(...)` call throws a `TypeError`. -/
theorem C2_counterexample :
    extractMeta (.str "<meta name=\"test\" content=\"value\">") (.num 123) = .typeError ∧
    extractMeta (.str "<meta name=\"test\" content=\"value\">") (.num 123) ≠ .ret none := by
  exact ⟨rfl, by decide⟩

/-- Claim C2 (amended): every empty or non-string `html` and every
falsy `name` (empty string, null, undefined, zero, false) is absorbed
to absent; but a truthy non-string `name` (such as a nonzero number or
`true`) is not absorbed --- it raises a `TypeError` from
`escapeRegex`. -/
theorem C2_amended_guard_absorption :
    (∀ html name : JSVal,
      (jsTruthy html = false ∨ isStringV html = false ∨ jsTruthy name = false) →
      extractMeta html name = .ret none) ∧
    (∀ (h : String) (n : Int), h ≠ "" → n ≠ 0 →
      extractMeta (.str h) (.num n) = .typeError) ∧
    (∀ h : String, h ≠ "" → extractMeta (.str h) (.boolean true) = .typeError) := by
  refine ⟨?_, ?_, ?_⟩
  · intro html name hcase
    unfold extractMeta
    rcases hcase with h | h | h <;> simp [h]
  · intro h n hh hn
    unfold extractMeta
    have h1 : jsTruthy (.str h) = true := by simp [jsTruthy, hh]
    have h2 : isStringV (.str h) = true := rfl
    have h3 : jsTruthy (.num n) = true := by simp [jsTruthy, hn]
    simp [h1, h2, h3]
  · intro h hh
    unfold extractMeta
    have h1 : jsTruthy (.str h) = true := by simp [jsTruthy, hh]
    simp [h1, isStringV, jsTruthy, hh]

/-- Claim C2 witness: the amended theorem applied at concrete inputs:
null `html` is absorbed to absent, and the number 123 as `name` with a
valid `html` throws. -/
theorem C2_amended_witness :
    extractMeta .null (.str "description") = .ret none ∧
    extractMeta (.str "<meta name=\"a\" content=\"b\">") (.num 123) = .typeError := by
  exact ⟨C2_amended_guard_absorption.1 .null (.str "description") (Or.inl rfl),
    C2_amended_guard_absorption.2.1 "<meta name=\"a\" content=\"b\">" 123
      (by decide) (by decide)⟩

/-- Claim C6 counterexample: the claim states that a meta tag whose
name attribute value differs from the requested name is never matched;
since both compiled patterns carry the `i` flag, a tag whose name
attribute value is `DESCRIPTION` --- a different string from the
requested `description` --- is matched. -/
theorem C6_counterexample :
    extractMetaStr "<meta name=\"DESCRIPTION\" content=\"x\">" "description" = some "x" ∧
    ("DESCRIPTION" : String) ≠ "description" := by
  exact ⟨rfl, by decide⟩

/-- Claim C6 (amended): `extractMetaTag` only matches a meta tag whose
name attribute value equals the requested name up to ASCII case:
regex metacharacters occurring in the name are escaped by
`escapeRegex` so the name is treated as literal text rather than a
pattern (a dot does not act as a wildcard), and a meta tag whose name
attribute value differs from the requested name other than by case is
not matched.  Established on representative inputs. -/
theorem C6_amended_name_literal :
    escapeRegex "a.b" = "a\\.b" ∧
    extractMetaStr "<meta name=\"aXb\" content=\"v\">" "a.b" = none ∧
    extractMetaStr "<meta name=\"a.b\" content=\"v\">" "a.b" = some "v" ∧
    extractMetaStr "<meta name=\"DESCRIPTION\" content=\"x\">" "description" = some "x" ∧
    extractMetaStr "<meta name=\"keywords\" content=\"v\">" "description" = none ∧
    extractMetaStr "<meta name=\"descriptionX\" content=\"v\">" "description" = none ∧
    extractMetaStr "<meta name=\"Xdescription\" content=\"v\">" "description" = none := by
  exact ⟨rfl, rfl, rfl, rfl, rfl, rfl, rfl⟩

theorem matchExact_cons (p : Char → Bool) (ps : List (Char → Bool)) (l : List Char) :
    matchExact (p :: ps) l = true ↔
    ∃ c cs, l = c :: cs ∧ p c = true ∧ matchExact ps cs = true := by
  cases l with
  | nil => simp [matchExact]
  | cons c cs =>
    simp only [matchExact, Bool.and_eq_true]
    constructor
    · rintro ⟨h1, h2⟩; exact ⟨c, cs, rfl, h1, h2⟩
    · rintro ⟨c', cs', heq, h1, h2⟩
      cases heq; exact ⟨h1, h2⟩

theorem matchExact_nil (l : List Char) : matchExact [] l = true ↔ l = [] := by
  cases l <;> simp [matchExact]

theorem matchExact_dateClasses (l : List Char) :
    matchExact dateClasses l = true ↔
    ∃ y1 y2 y3 y4 m1 m2 d1 d2,
      l = [y1, y2, y3, y4, '-', m1, m2, '-', d1, d2] ∧
      y1.isDigit = true ∧ y2.isDigit = true ∧ y3.isDigit = true ∧ y4.isDigit = true ∧
      m1.isDigit = true ∧ m2.isDigit = true ∧ d1.isDigit = true ∧ d2.isDigit = true := by
  simp only [dateClasses, matchExact_cons, matchExact_nil, isDigitCh, isDashCh, beq_iff_eq]
  constructor
  · rintro ⟨c0, cs0, rfl, h0, c1, cs1, rfl, h1, c2, cs2, rfl, h2, c3, cs3, rfl, h3,
      c4, cs4, rfl, rfl, c5, cs5, rfl, h5, c6, cs6, rfl, h6, c7, cs7, rfl, rfl,
      c8, cs8, rfl, h8, c9, cs9, rfl, h9, rfl⟩
    exact ⟨c0, c1, c2, c3, c5, c6, c8, c9, rfl, h0, h1, h2, h3, h5, h6, h8, h9⟩
  · rintro ⟨y1, y2, y3, y4, m1, m2, d1, d2, rfl, h0, h1, h2, h3, h5, h6, h8, h9⟩
    exact ⟨y1, _, rfl, h0, y2, _, rfl, h1, y3, _, rfl, h2, y4, _, rfl, h3,
      '-', _, rfl, rfl, m1, _, rfl, h5, m2, _, rfl, h6, '-', _, rfl, rfl,
      d1, _, rfl, h8, d2, _, rfl, h9, rfl⟩

theorem matchLeading_cons (p : Char → Bool) (ps : List (Char → Bool)) (l : List Char) :
    matchLeading (p :: ps) l = true ↔
    ∃ c cs, l = c :: cs ∧ p c = true ∧ matchLeading ps cs = true := by
  cases l with
  | nil => simp [matchLeading]
  | cons c cs =>
    simp only [matchLeading, Bool.and_eq_true]
    constructor
    · rintro ⟨h1, h2⟩; exact ⟨c, cs, rfl, h1, h2⟩
    · rintro ⟨c', cs', heq, h1, h2⟩
      cases heq; exact ⟨h1, h2⟩

theorem matchLeading_dateClasses (l : List Char) :
    matchLeading dateClasses l = true ↔
    ∃ y1 y2 y3 y4 m1 m2 d1 d2 rest,
      l = [y1, y2, y3, y4, '-', m1, m2, '-', d1, d2] ++ rest ∧
      y1.isDigit = true ∧ y2.isDigit = true ∧ y3.isDigit = true ∧ y4.isDigit = true ∧
      m1.isDigit = true ∧ m2.isDigit = true ∧ d1.isDigit = true ∧ d2.isDigit = true := by
  simp only [dateClasses, matchLeading_cons, isDigitCh, isDashCh, beq_iff_eq]
  constructor
  · rintro ⟨c0, cs0, rfl, h0, c1, cs1, rfl, h1, c2, cs2, rfl, h2, c3, cs3, rfl, h3,
      c4, cs4, rfl, rfl, c5, cs5, rfl, h5, c6, cs6, rfl, h6, c7, cs7, rfl, rfl,
      c8, cs8, rfl, h8, c9, cs9, rfl, h9, _⟩
    exact ⟨c0, c1, c2, c3, c5, c6, c8, c9, cs9, rfl, h0, h1, h2, h3, h5, h6, h8, h9⟩
  · rintro ⟨y1, y2, y3, y4, m1, m2, d1, d2, rest, rfl, h0, h1, h2, h3, h5, h6, h8, h9⟩
    exact ⟨y1, _, rfl, h0, y2, _, rfl, h1, y3, _, rfl, h2, y4, _, rfl, h3,
      '-', _, rfl, rfl, m1, _, rfl, h5, m2, _, rfl, h6, '-', _, rfl, rfl,
      d1, _, rfl, h8, d2, _, rfl, h9, by simp [matchLeading]⟩

theorem strMk_cons_ne_empty (c : Char) (cs : List Char) :
    (String.mk (c :: cs) == "") = false := rfl

theorem strMk_inj (a b : List Char) : String.mk a = String.mk b ↔ a = b :=
  ⟨fun h => congrArg String.data h, fun h => congrArg String.mk h⟩

theorem isValidDateFormat_iff (l : List Char) :
    isValidDateFormat (.str (String.mk l)) = true ↔
    ∃ y1 y2 y3 y4 m1 m2 d1 d2,
      l = [y1, y2, y3, y4, '-', m1, m2, '-', d1, d2] ∧
      (y1.isDigit = true ∧ y2.isDigit = true ∧ y3.isDigit = true ∧ y4.isDigit = true ∧
       m1.isDigit = true ∧ m2.isDigit = true ∧ d1.isDigit = true ∧ d2.isDigit = true) ∧
      (1 ≤ 10 * digitVal m1 + digitVal m2 ∧ 10 * digitVal m1 + digitVal m2 ≤ 12 ∧
       1 ≤ 10 * digitVal d1 + digitVal d2 ∧
       10 * digitVal d1 + digitVal d2 ≤
         daysInMonth (1000 * digitVal y1 + 100 * digitVal y2 + 10 * digitVal y3 + digitVal y4)
           (10 * digitVal m1 + digitVal m2)) := by
  constructor
  · intro h
    rcases l with _ | ⟨c, cs⟩
    · exact absurd h (by decide)
    · by_cases hm : matchExact dateClasses (c :: cs) = true
      · obtain ⟨y1, y2, y3, y4, m1, m2, d1, d2, hshape, hd⟩ :=
          (matchExact_dateClasses (c :: cs)).mp hm
        refine ⟨y1, y2, y3, y4, m1, m2, d1, d2, hshape, hd, ?_⟩
        rw [hshape] at h hm
        simp only [isValidDateFormat, strMk_cons_ne_empty, Bool.false_eq_true, if_false, hm,
          if_true] at h
        simp only [isoDateOK, Bool.and_eq_true, decide_eq_true_eq] at h
        exact ⟨h.1.1.1, h.1.1.2, h.1.2, h.2⟩
      · exfalso
        simp only [isValidDateFormat, strMk_cons_ne_empty, Bool.false_eq_true, if_false, hm] at h
  · rintro ⟨y1, y2, y3, y4, m1, m2, d1, d2, rfl, hd, hcal⟩
    have hm : matchExact dateClasses [y1, y2, y3, y4, '-', m1, m2, '-', d1, d2] = true :=
      (matchExact_dateClasses _).mpr ⟨y1, y2, y3, y4, m1, m2, d1, d2, rfl,
        hd.1, hd.2.1, hd.2.2.1, hd.2.2.2.1, hd.2.2.2.2.1, hd.2.2.2.2.2.1,
        hd.2.2.2.2.2.2.1, hd.2.2.2.2.2.2.2⟩
    simp only [isValidDateFormat, strMk_cons_ne_empty, Bool.false_eq_true, if_false, hm, if_true]
    simp only [isoDateOK, Bool.and_eq_true, decide_eq_true_eq]
    exact ⟨⟨⟨hcal.1, hcal.2.1⟩, hcal.2.2.1⟩, hcal.2.2.2⟩

theorem extractDateFromFilename_iff (l : List Char) (t : String) :
    extractDateFromFilename (.str (String.mk l)) = some t ↔
    ∃ y1 y2 y3 y4 m1 m2 d1 d2 rest,
      l = [y1, y2, y3, y4, '-', m1, m2, '-', d1, d2] ++ rest ∧
      (y1.isDigit = true ∧ y2.isDigit = true ∧ y3.isDigit = true ∧ y4.isDigit = true ∧
       m1.isDigit = true ∧ m2.isDigit = true ∧ d1.isDigit = true ∧ d2.isDigit = true) ∧
      t = String.mk [y1, y2, y3, y4, '-', m1, m2, '-', d1, d2] := by
  constructor
  · intro h
    rcases l with _ | ⟨c, cs⟩
    · simp [extractDateFromFilename] at h
    · by_cases hm : matchLeading dateClasses (c :: cs) = true
      · obtain ⟨y1, y2, y3, y4, m1, m2, d1, d2, rest, hshape, hd⟩ :=
          (matchLeading_dateClasses (c :: cs)).mp hm
        refine ⟨y1, y2, y3, y4, m1, m2, d1, d2, rest, hshape, hd, ?_⟩
        rw [hshape] at h hm
        simp only [extractDateFromFilename, strMk_cons_ne_empty, Bool.false_eq_true, if_false,
          hm, if_true] at h
        have ht : (([y1, y2, y3, y4, '-', m1, m2, '-', d1, d2] ++ rest).take 10) =
            [y1, y2, y3, y4, '-', m1, m2, '-', d1, d2] := rfl
        rw [ht] at h
        exact (Option.some.injEq _ _ ▸ h).symm
      · exfalso
        simp only [extractDateFromFilename, strMk_cons_ne_empty, Bool.false_eq_true, if_false,
          hm] at h
        exact Option.noConfusion h
  · rintro ⟨y1, y2, y3, y4, m1, m2, d1, d2, rest, rfl, hd, rfl⟩
    have hm : matchLeading dateClasses
        ([y1, y2, y3, y4, '-', m1, m2, '-', d1, d2] ++ rest) = true :=
      (matchLeading_dateClasses _).mpr ⟨y1, y2, y3, y4, m1, m2, d1, d2, rest, rfl,
        hd.1, hd.2.1, hd.2.2.1, hd.2.2.2.1, hd.2.2.2.2.1, hd.2.2.2.2.2.1,
        hd.2.2.2.2.2.2.1, hd.2.2.2.2.2.2.2⟩
    have hne : (String.mk ([y1, y2, y3, y4, '-', m1, m2, '-', d1, d2] ++ rest) == "") = false :=
      rfl
    simp only [extractDateFromFilename, hne, Bool.false_eq_true, if_false, hm, if_true]
    rfl

/-- Claim C3: `isValidCalendarDate` returns false for non-string, empty,
or lexically non-matching input (no partial match, no single-digit
month or day, no extra characters); for strings of the exact shape
`\d\d\d\d-\d\d-\d\d` it returns true if and only if the month is in
1..12 and the day is valid for that month and year (with leap years),
so normalized or overflowed dates such as 2025-02-30, 2025-13-01 and
2025-00-01 yield false. -/
theorem C3_isValidDateFormat_spec :
    (∀ v : JSVal, isValidDateFormat v = true ↔
      ∃ y1 y2 y3 y4 m1 m2 d1 d2,
        v = .str (String.mk [y1, y2, y3, y4, '-', m1, m2, '-', d1, d2]) ∧
        (y1.isDigit = true ∧ y2.isDigit = true ∧ y3.isDigit = true ∧ y4.isDigit = true ∧
         m1.isDigit = true ∧ m2.isDigit = true ∧ d1.isDigit = true ∧ d2.isDigit = true) ∧
        (1 ≤ 10 * digitVal m1 + digitVal m2 ∧ 10 * digitVal m1 + digitVal m2 ≤ 12 ∧
         1 ≤ 10 * digitVal d1 + digitVal d2 ∧
         10 * digitVal d1 + digitVal d2 ≤
           daysInMonth (1000 * digitVal y1 + 100 * digitVal y2 + 10 * digitVal y3 + digitVal y4)
             (10 * digitVal m1 + digitVal m2))) ∧
    isValidDateFormat (.str "2025-01-15") = true ∧
    isValidDateFormat (.str "2024-02-29") = true ∧
    isValidDateFormat (.str "2023-02-29") = false ∧
    isValidDateFormat (.str "2025-02-30") = false ∧
    isValidDateFormat (.str "2025-13-01") = false ∧
    isValidDateFormat (.str "2025-00-01") = false ∧
    isValidDateFormat (.str "2025-1-15") = false ∧
    isValidDateFormat (.str "x2025-01-15") = false ∧
    isValidDateFormat (.str "") = false ∧
    isValidDateFormat (.num 123) = false ∧
    isValidDateFormat .null = false ∧
    isValidDateFormat .undefined = false := by
  refine ⟨?_, rfl, rfl, rfl, rfl, rfl, rfl, rfl, rfl, rfl, rfl, rfl, rfl⟩
  intro v
  cases v with
  | str s =>
    obtain ⟨l⟩ := s
    rw [isValidDateFormat_iff l]
    simp only [JSVal.str.injEq, strMk_inj]
  | num n => simp [isValidDateFormat]
  | boolean b => simp [isValidDateFormat]
  | null => simp [isValidDateFormat]
  | undefined => simp [isValidDateFormat]

/-- Claim C7: `extractLeadingDate` returns absent for non-string or
empty input; for a non-empty string it returns the ten-character
leading substring of shape `\d\d\d\d-\d\d-\d\d` anchored at position 0,
and absent when the string does not begin with that pattern (a match
later in the string is not returned); no calendar validation is
performed, so a calendar-invalid leading pattern such as 9999-99-99 is
still returned. -/
theorem C7_extractDateFromFilename_spec :
    (∀ s t : String, extractDateFromFilename (.str s) = some t ↔
      ∃ y1 y2 y3 y4 m1 m2 d1 d2 rest,
        s = String.mk ([y1, y2, y3, y4, '-', m1, m2, '-', d1, d2] ++ rest) ∧
        (y1.isDigit = true ∧ y2.isDigit = true ∧ y3.isDigit = true ∧ y4.isDigit = true ∧
         m1.isDigit = true ∧ m2.isDigit = true ∧ d1.isDigit = true ∧ d2.isDigit = true) ∧
        t = String.mk [y1, y2, y3, y4, '-', m1, m2, '-', d1, d2]) ∧
    (∀ n : Int, extractDateFromFilename (.num n) = none) ∧
    (∀ b : Bool, extractDateFromFilename (.boolean b) = none) ∧
    extractDateFromFilename .null = none ∧
    extractDateFromFilename .undefined = none ∧
    extractDateFromFilename (.str "") = none ∧
    extractDateFromFilename (.str "2025-01-15-test-post.html") = some "2025-01-15" ∧
    extractDateFromFilename (.str "test-post.html") = none ∧
    extractDateFromFilename (.str "25-01-15-post.html") = none ∧
    extractDateFromFilename (.str "x2025-01-15.html") = none ∧
    extractDateFromFilename (.str "9999-99-99zzz") = some "9999-99-99" := by
  refine ⟨?_, fun _ => rfl, fun _ => rfl, rfl, rfl, rfl, rfl, rfl, rfl, rfl, rfl⟩
  intro s t
  obtain ⟨l⟩ := s
  rw [extractDateFromFilename_iff l t]
  simp only [strMk_inj]

theorem firstSome_eq_some {α : Type} (a b : Option α) (r : α)
    (h : firstSome a b = some r) : a = some r ∨ (a = none ∧ b = some r) := by
  cases a with
  | none => exact Or.inr ⟨rfl, h⟩
  | some x => exact Or.inl h

theorem tryGreedy_split {α : Type} (p : Char → Bool) (k : List Char → Option α) :
    ∀ (s : List Char) (res : α), tryGreedy p k s = some res →
    ∃ l s', s = l ++ s' ∧ (∀ c ∈ l, p c = true) ∧ k s' = some res := by
  intro s
  induction s with
  | nil =>
    intro res h
    exact ⟨[], [], rfl, by simp, h⟩
  | cons c rest ih =>
    intro res h
    rw [tryGreedy] at h
    by_cases hp : p c = true
    · rw [if_pos hp] at h
      rcases firstSome_eq_some _ _ _ h with h1 | ⟨_, h2⟩
      · obtain ⟨l, s', hsplit, hl, hk⟩ := ih res h1
        refine ⟨c :: l, s', by rw [hsplit]; rfl, ?_, hk⟩
        intro x hx
        rcases List.mem_cons.mp hx with rfl | hx
        · exact hp
        · exact hl x hx
      · exact ⟨[], c :: rest, rfl, by simp, h2⟩
    · rw [if_neg hp] at h
      exact ⟨[], c :: rest, rfl, by simp, h⟩

theorem tryLazy_split {α : Type} (p : Char → Bool) (k : List Char → Option α) :
    ∀ (s : List Char) (res : α), tryLazy p k s = some res →
    ∃ l s', s = l ++ s' ∧ (∀ c ∈ l, p c = true) ∧ k s' = some res := by
  intro s
  induction s with
  | nil =>
    intro res h
    exact ⟨[], [], rfl, by simp, h⟩
  | cons c rest ih =>
    intro res h
    rw [tryLazy] at h
    rcases firstSome_eq_some _ _ _ h with h1 | ⟨_, h2⟩
    · exact ⟨[], c :: rest, rfl, by simp, h1⟩
    · by_cases hp : p c = true
      · rw [if_pos hp] at h2
        obtain ⟨l, s', hsplit, hl, hk⟩ := ih res h2
        refine ⟨c :: l, s', by rw [hsplit]; rfl, ?_, hk⟩
        intro x hx
        rcases List.mem_cons.mp hx with rfl | hx
        · exact hp
        · exact hl x hx
      · rw [if_neg hp] at h2
        exact Option.noConfusion h2

theorem consOnly_split (Q : Char → Bool) :
    ∀ (r : RE), ConsOnly Q r → ∀ (s : List Char) (cap : Option (List Char))
      (k : List Char → Option (List Char) → Option (Option (List Char)))
      (res : Option (List Char)),
      runRE r s cap k = some res →
      ∃ l s' cap', s = l ++ s' ∧ (∀ c ∈ l, Q c = true) ∧ k s' cap' = some res := by
  intro r
  induction r with
  | eps =>
    intro _ s cap k res h
    exact ⟨[], s, cap, rfl, by simp, h⟩
  | cls p =>
    intro hco s cap k res h
    rcases s with _ | ⟨c, rest⟩
    · exact Option.noConfusion h
    · rw [runRE] at h
      by_cases hp : p c = true
      · rw [if_pos hp] at h
        exact ⟨[c], rest, cap, rfl, by simpa using hco c hp, h⟩
      · rw [if_neg hp] at h
        exact Option.noConfusion h
  | cat a b iha ihb =>
    intro hco s cap k res h
    rw [runRE] at h
    obtain ⟨l1, s1, c1, hs1, hl1, h1⟩ := iha hco.1 s cap _ res h
    obtain ⟨l2, s2, c2, hs2, hl2, h2⟩ := ihb hco.2 s1 c1 k res h1
    refine ⟨l1 ++ l2, s2, c2, by rw [hs1, hs2, List.append_assoc], ?_, h2⟩
    intro x hx
    rcases List.mem_append.mp hx with hx | hx
    · exact hl1 x hx
    · exact hl2 x hx
  | starG p =>
    intro hco s cap k res h
    rw [runRE] at h
    obtain ⟨l, s', hsplit, hl, hk⟩ := tryGreedy_split p _ s res h
    exact ⟨l, s', cap, hsplit, fun c hc => hco c (hl c hc), hk⟩
  | starL p =>
    intro hco s cap k res h
    rw [runRE] at h
    obtain ⟨l, s', hsplit, hl, hk⟩ := tryLazy_split p _ s res h
    exact ⟨l, s', cap, hsplit, fun c hc => hco c (hl c hc), hk⟩
  | group r ihr =>
    intro hco s cap k res h
    rw [runRE] at h
    obtain ⟨l, s', c', hsplit, hl, hk⟩ := ihr hco s cap _ res h
    exact ⟨l, s', some (s.take (s.length - s'.length)), hsplit, hl, hk⟩

theorem take_append_sub (l s' : List Char) :
    (l ++ s').take ((l ++ s').length - s'.length) = l := by
  rw [List.length_append, Nat.add_sub_cancel]
  exact List.take_left l s'

theorem groupsCons_run (Q : Char → Bool) :
    ∀ (r : RE), GroupsCons Q r → ∀ (s : List Char) (cap : Option (List Char))
      (k : List Char → Option (List Char) → Option (Option (List Char)))
      (res : Option (List Char)),
      runRE r s cap k = some res →
      (∀ g, cap = some g → ∀ c ∈ g, Q c = true) →
      ∃ s' cap', (∀ g, cap' = some g → ∀ c ∈ g, Q c = true) ∧ k s' cap' = some res := by
  intro r
  induction r with
  | eps =>
    intro _ s cap k res h hcap
    exact ⟨s, cap, hcap, h⟩
  | cls p =>
    intro _ s cap k res h hcap
    rcases s with _ | ⟨c, rest⟩
    · exact Option.noConfusion h
    · rw [runRE] at h
      by_cases hp : p c = true
      · rw [if_pos hp] at h
        exact ⟨rest, cap, hcap, h⟩
      · rw [if_neg hp] at h
        exact Option.noConfusion h
  | cat a b iha ihb =>
    intro hgc s cap k res h hcap
    rw [runRE] at h
    obtain ⟨s1, c1, hc1, h1⟩ := iha hgc.1 s cap _ res h hcap
    exact ihb hgc.2 s1 c1 k res h1 hc1
  | starG p =>
    intro _ s cap k res h hcap
    rw [runRE] at h
    obtain ⟨l, s', _, _, hk⟩ := tryGreedy_split p _ s res h
    exact ⟨s', cap, hcap, hk⟩
  | starL p =>
    intro _ s cap k res h hcap
    rw [runRE] at h
    obtain ⟨l, s', _, _, hk⟩ := tryLazy_split p _ s res h
    exact ⟨s', cap, hcap, hk⟩
  | group r _ =>
    intro hgc s cap k res h _
    rw [runRE] at h
    obtain ⟨l, s', c', hsplit, hl, hk⟩ := consOnly_split Q r hgc s cap _ res h
    refine ⟨s', some (s.take (s.length - s'.length)), ?_, hk⟩
    intro g hg c hc
    have : s.take (s.length - s'.length) = l := by
      rw [hsplit]; exact take_append_sub l s'
    rw [this] at hg
    cases Option.some.inj hg
    exact hl c hc

theorem matchHere_groups (Q : Char → Bool) (r : RE) (hr : GroupsCons Q r)
    (s : List Char) (res : Option (List Char)) (h : matchHere r s = some res) :
    ∀ g, res = some g → ∀ c ∈ g, Q c = true := by
  obtain ⟨s', cap', hcap', hfin⟩ :=
    groupsCons_run Q r hr s none _ res h (fun g hg => Option.noConfusion hg)
  intro g hg c hc
  cases Option.some.inj hfin
  exact hcap' g hg c hc

theorem searchFrom_groups (Q : Char → Bool) (r : RE) (hr : GroupsCons Q r) :
    ∀ (l : List Char) (res : Option (List Char)), searchFrom r l = some res →
    ∀ g, res = some g → ∀ c ∈ g, Q c = true := by
  intro l
  induction l with
  | nil =>
    intro res h
    exact matchHere_groups Q r hr [] res h
  | cons c rest ih =>
    intro res h
    rw [searchFrom] at h
    rcases firstSome_eq_some _ _ _ h with h1 | ⟨_, h2⟩
    · exact matchHere_groups Q r hr (c :: rest) res h1
    · exact ih res h2

theorem firstGroup_groups (Q : Char → Bool) (r : RE) (hr : GroupsCons Q r)
    (l g : List Char) (h : firstGroup r l = some g) : ∀ c ∈ g, Q c = true := by
  unfold firstGroup at h
  cases hs : searchFrom r l with
  | none => rw [hs] at h; exact Option.noConfusion h
  | some res =>
    rw [hs] at h
    cases res with
    | none => exact Option.noConfusion h
    | some g' =>
      cases Option.some.inj h
      exact searchFrom_groups Q r hr l (some g) hs g rfl

theorem groupsCons_litCI (Q : Char → Bool) (l : List Char) : GroupsCons Q (litCI l) := by
  induction l with
  | nil => exact trivial
  | cons c cs ih => exact ⟨trivial, ih⟩

theorem groupsCons_metaP1 (name : List Char) : GroupsCons notQuote (metaP1 name) :=
  ⟨groupsCons_litCI _ _, trivial, groupsCons_litCI _ _, trivial, groupsCons_litCI _ _,
   trivial, trivial, groupsCons_litCI _ _, trivial, fun _ h => h, trivial, trivial⟩

theorem groupsCons_metaP2 (name : List Char) : GroupsCons notQuote (metaP2 name) :=
  ⟨groupsCons_litCI _ _, trivial, groupsCons_litCI _ _, trivial, fun _ h => h,
   trivial, trivial, groupsCons_litCI _ _, trivial, groupsCons_litCI _ _, trivial, trivial⟩

theorem mem_of_mem_dropWhile {p : Char → Bool} {c : Char} :
    ∀ {l : List Char}, c ∈ l.dropWhile p → c ∈ l := by
  intro l
  induction l with
  | nil => intro h; simp at h
  | cons x xs ih =>
    intro h
    by_cases hp : p x = true
    · rw [List.dropWhile_cons_of_pos hp] at h
      exact List.mem_cons_of_mem x (ih h)
    · rw [List.dropWhile_cons_of_neg hp] at h
      exact h

theorem mem_of_mem_jsTrim {c : Char} {l : List Char} (h : c ∈ jsTrim l) : c ∈ l := by
  unfold jsTrim at h
  rw [List.mem_reverse] at h
  have h1 := mem_of_mem_dropWhile h
  rw [List.mem_reverse] at h1
  exact mem_of_mem_dropWhile h1

/-- Claim C9: the captured content of `extractMetaTag` is a run of
characters excluding both quote characters regardless of which
delimiter encloses the attribute: every returned value is free of both
single and double quotes (general theorem over all inputs), a content
value containing the other quote character is truncated at the first
quote inside it, and mismatched opening/closing delimiters are still
accepted as a match. -/
theorem C9_capture_excludes_quotes :
    (∀ html name t : String, extractMetaStr html name = some t →
      t.data.all notQuote = true) ∧
    extractMetaStr ("<meta name=\"description\" content=\"it" ++ squo.toString ++ "s fine\">")
      "description" = some "it" ∧
    extractMetaStr ("<meta name=\"description" ++ squo.toString ++ " content=\"x\">")
      "description" = some "x" := by
  refine ⟨?_, rfl, rfl⟩
  intro html name t h
  unfold extractMetaStr at h
  have key : ∀ g : List Char, (∀ c ∈ g, notQuote c = true) →
      some (String.mk (jsTrim g)) = some t → t.data.all notQuote = true := by
    intro g hg heq
    cases Option.some.inj heq
    rw [List.all_eq_true]
    intro c hc
    exact hg c (mem_of_mem_jsTrim hc)
  cases h1 : firstGroup (metaP1 name.data) html.data with
  | some g =>
    rw [h1] at h
    exact key g (firstGroup_groups notQuote _ (groupsCons_metaP1 name.data) _ g h1) h
  | none =>
    rw [h1] at h
    cases h2 : firstGroup (metaP2 name.data) html.data with
    | some g =>
      rw [h2] at h
      exact key g (firstGroup_groups notQuote _ (groupsCons_metaP2 name.data) _ g h2) h
    | none =>
      rw [h2] at h
      exact Option.noConfusion h

/-- Claim C9 witness: the general quote-freedom theorem applied at a
concrete input whose hypothesis is discharged by evaluation. -/
theorem C9_capture_excludes_quotes_witness :
    extractMetaStr "<meta name=\"author\" content=\"a b\">" "author" = some "a b" ∧
    ("a b" : String).data.all notQuote = true :=
  ⟨rfl, C9_capture_excludes_quotes.1 "<meta name=\"author\" content=\"a b\">" "author" "a b" rfl⟩
